import Mathlib

/-!
Verification of the tt-timetracker core: the log-line parser (`log_parser.rs`),
the stateful block collector (`collector.rs`) and the report distribution
engine (`subcommands/report.rs`), shallowly embedded in Lean.

Modelling conventions:
* `chrono::NaiveTime` is modelled as `Nat`, the number of seconds since
  midnight (every time in the program is produced by parsing `HH:MM`, hence a
  whole minute; the representation keeps full second resolution).
* `chrono::Duration` is modelled as `Int`, a signed number of whole seconds
  (every duration in the program is a difference of two `NaiveTime`s, hence a
  whole number of seconds; the millisecond resolution of `chrono` is inert).
* `HashMap<String, (Int, BTreeMap<String, Int>)>` is modelled as an
  association list in insertion order; `BTreeMap` insertion is modelled as
  in-place update / append (the `BTreeMap` key order is immaterial to the
  properties proved here).
* The share arithmetic of `handle_cutoff_and_distribute` is performed by the
  source in IEEE-754 binary64 (`f64`); it is modelled exactly by the `F64`
  type below: a float is either NaN, an infinity, or a finite exact rational
  value; every arithmetic operation rounds its exact rational result to 53
  significant bits with round-to-nearest, ties-to-even, exactly as binary64
  does.  Negative zero is collapsed to `+0`, which is observationally equal
  for every computation in this program (all zeros here arise from integer
  casts or from exact subtraction of equal values, which produce `+0`).
-/

namespace TT

set_option maxRecDepth 20000

/-- ParseError payload of `TTErrorKind::ParseError(&'static str, String)`:
the static message and the offending line. -/
structure TTError where
  msg : String
  line : String
  deriving DecidableEq, Repr

deriving instance DecidableEq for Except

/-- Models `log_parser::is_distributable`: the activity name starts with `_`
(`activity.starts_with("_")`, i.e. the first character is an underscore). -/
def is_distributable (activity : String) : Bool :=
  activity.data.head? == some '_'

/-- Models `log_parser::is_break`: the activity is exactly `break` or `end`. -/
def is_break (activity : String) : Bool :=
  activity == "break" || activity == "end"

/-- Models `log_parser::BlockData`. -/
structure BlockData where
  start : Nat
  activity : String
  tags : List String
  distribute : Bool
  deriving DecidableEq, Repr

/-- Models `log_parser::Block`. -/
inductive Block where
  | NormalBlock (data : BlockData)
  | ReallyBlock (data : BlockData)
  | TimeCorrection (t : Nat)
  | CommentBlock
  deriving DecidableEq, Repr

/-- Map from tag to accumulated duration (models `BTreeMap<String, Int>`). -/
abbrev TagMap := List (String × Int)

/-- Models `collector::ActivityHashMap`: name -> (duration, map(tag -> duration)). -/
abbrev ActivityHashMap := List (String × (Int × TagMap))

/-- Models `collector::Summary`. -/
structure Summary where
  start : Nat
  «end» : Nat
  breaks : Int
  work_time : Int
  activities : ActivityHashMap
  distribute : Int
  deriving DecidableEq, Repr

/-- Models `collector::ProgressData`: the running summary, the data of the
still-open block (`last`), and the data of the previously closed block
(`prev`). -/
structure ProgressData where
  summary : Summary
  last : BlockData
  prev : Option BlockData
  deriving DecidableEq, Repr

/-- Models `collector::CollectResult`. -/
structure CollectResult where
  summary : Summary
  final_activity : String
  final_shortname : Option String
  final_start : Nat
  deriving DecidableEq, Repr

/-- First-match association list lookup (models `HashMap::get` /
`BTreeMap::get`; the collector never creates duplicate keys). -/
def alookup (k : String) : List (String × α) → Option α
  | [] => none
  | (k', v) :: rest => if k' = k then some v else alookup k rest

/-- Models `BTreeMap::insert`: replace the value of an existing key, else add
the key (at the end; the `BTreeMap` key order is immaterial here). -/
def btInsert (k : String) (v : Int) : TagMap → TagMap
  | [] => [(k, v)]
  | (k', v') :: rest => if k' = k then (k, v) :: rest else (k', v') :: btInsert k v rest

/-- Models the `get_mut` mutation in the `TimeCorrection` branch of
`BlockCollector::add`: add `diff` to the named activity's duration and to
every one of its tag durations.  The source `unwrap`s the lookup: the entry
is always present there, because it was created when the previous block was
closed; on a (there unreachable) missing key this model leaves the map
unchanged where the source would abort. -/
def updateActivity (name : String) (diff : Int) : ActivityHashMap → ActivityHashMap
  | [] => []
  | (k, (d, tm)) :: rest =>
    if k = name then
      (k, (d + diff, tm.map fun tg => (tg.1, tg.2 + diff))) :: updateActivity name diff rest
    else (k, (d, tm)) :: updateActivity name diff rest

/-- Models the activity-merge step of the `NormalBlock` branch of
`BlockCollector::add`: add `duration` to the activity's total and to each of
the block's tags, creating the entry (with each tag at `duration`) if the
activity is new. -/
def closeInto (name : String) (tags : List String) (duration : Int)
    (acts : ActivityHashMap) : ActivityHashMap :=
  match alookup name acts with
  | some _ =>
    acts.map fun p =>
      if p.1 = name then
        (p.1, (p.2.1 + duration,
          tags.foldl (fun m tag => btInsert tag ((alookup tag m).getD 0 + duration) m) p.2.2))
      else p
  | none =>
    acts ++ [(name, (duration, tags.foldl (fun m tag => btInsert tag duration m) []))]

/-- Models `BlockCollector::add`.  The collector state is
`Option ProgressData` exactly as in the source (`None` = no block seen yet).
The source asserts `b.start >= data.last.start` when closing a block; the
model computes the signed difference without the assertion (no property
below exercises the violating case). -/
def add (state : Option ProgressData) (block : Block) : Option ProgressData :=
  match state with
  | none =>
    match block with
    | .ReallyBlock _ => none
    | .TimeCorrection _ => none
    | .CommentBlock => none
    | .NormalBlock b =>
      some ⟨⟨b.start, b.start, 0, 0, [], 0⟩, b, none⟩
  | some data =>
    match block with
    | .CommentBlock => some data
    | .TimeCorrection real_start =>
      let diff : Int := (real_start : Int) - (data.last.start : Int)
      let last' := { data.last with start := real_start }
      match data.prev with
      | some before =>
        some ⟨{ data.summary with
                «end» := real_start,
                activities := updateActivity before.activity diff data.summary.activities,
                breaks := if is_break before.activity then data.summary.breaks + diff
                          else data.summary.breaks,
                work_time := if is_break before.activity then data.summary.work_time
                             else data.summary.work_time + diff,
                distribute := if before.distribute then data.summary.distribute + diff
                              else data.summary.distribute },
              last', data.prev⟩
      | none =>
        some ⟨{ data.summary with start := real_start, «end» := real_start }, last', data.prev⟩
    | .ReallyBlock b =>
      some ⟨data.summary, ⟨data.last.start, b.activity, b.tags, b.distribute⟩, data.prev⟩
    | .NormalBlock b =>
      let duration : Int := (b.start : Int) - (data.last.start : Int)
      let s1 := { data.summary with
                  «end» := b.start,
                  breaks := if is_break data.last.activity then data.summary.breaks + duration
                            else data.summary.breaks,
                  work_time := if is_break data.last.activity then data.summary.work_time
                               else data.summary.work_time + duration,
                  distribute := if data.last.distribute then data.summary.distribute + duration
                                else data.summary.distribute }
      -- the final `data.prev = Some(b); mem::swap(...)` nets to
      -- `prev := old last, last := b`
      some ⟨{ s1 with activities := closeInto data.last.activity data.last.tags duration s1.activities },
            b, some data.last⟩

/-- Models `BlockCollector::finalize`: capture the identity of the still-open
block, optionally close the day with a synthetic `break` block at `at_`, and
return the results (`none` when no block was ever opened). -/
def finalize (state : Option ProgressData) (at_ : Option Nat) : Option CollectResult :=
  match state with
  | none => none
  | some data =>
    let last_activity := data.last.activity
    let last_shortname := data.last.tags.find? (fun s => s.data.head? == some '=')
    let last_start := data.last.start
    let state' :=
      match at_ with
      | some time => add (some data) (.NormalBlock ⟨time, "break", [], false⟩)
      | none => some data
    match state' with
    | none => none
    | some d => some ⟨d.summary, last_activity, last_shortname, last_start⟩

/-- Numeric value of a digit character. -/
def digitVal (c : Char) : Nat := c.toNat - 48

/-- Bounds check shared by all shapes of `utils::parse_time`: chrono rejects
hours above 23 and minutes above 59. -/
def mkTime (h m : Nat) : Option Nat :=
  if h ≤ 23 ∧ m ≤ 59 then some (h * 3600 + m * 60) else none

/-- Models `utils::parse_time` (`NaiveTime::parse_from_str(s, "%H:%M")`) on the
characters of one whitespace-free token: chrono accepts one or two digits for
`%H`, a literal `:`, one or two digits for `%M`, and requires the whole token
to be consumed.  (chrono would additionally skip leading whitespace before a
numeric field, but every string this program parses is a token produced by
`split_whitespace` and contains none.) -/
def parse_time : List Char → Option Nat
  | [a, c, b] =>
    if a.isDigit && (c == ':') && b.isDigit then mkTime (digitVal a) (digitVal b) else none
  | [a, b, c, d] =>
    if a.isDigit && (b == ':') && c.isDigit && d.isDigit then
      mkTime (digitVal a) (digitVal c * 10 + digitVal d)
    else if a.isDigit && b.isDigit && (c == ':') && d.isDigit then
      mkTime (digitVal a * 10 + digitVal b) (digitVal d)
    else none
  | [a, b, c, d, e] =>
    if a.isDigit && b.isDigit && (c == ':') && d.isDigit && e.isDigit then
      mkTime (digitVal a * 10 + digitVal b) (digitVal d * 10 + digitVal e)
    else none
  | _ => none

/-- The Unicode `White_Space` property, the separator set of Rust's
`char::is_whitespace` and hence of `str::split_whitespace`: U+0009..U+000D,
U+0020, U+0085, U+00A0, U+1680, U+2000..U+200A, U+2028, U+2029, U+202F,
U+205F and U+3000. -/
def isRustWs (c : Char) : Bool :=
  decide (c ∈ ['\u0009', '\u000A', '\u000B', '\u000C', '\u000D', '\u0020',
    '\u0085', '\u00A0', '\u1680',
    '\u2000', '\u2001', '\u2002', '\u2003', '\u2004', '\u2005',
    '\u2006', '\u2007', '\u2008', '\u2009', '\u200A',
    '\u2028', '\u2029', '\u202F', '\u205F', '\u3000'])

/-- Models `str::split_whitespace`: the maximal runs of characters outside
the Unicode `White_Space` set, in order. -/
def words : List Char → List (List Char)
  | [] => []
  | [c] => if isRustWs c then [] else [[c]]
  | c :: d :: cs =>
    if isRustWs c then words (d :: cs)
    else
      match words (d :: cs) with
      | [] => [[c]]
      | w :: ws => if isRustWs d then [c] :: w :: ws else (c :: w) :: ws

/-- Models `Vec::join(" ")`: interleave a single space between the word list. -/
def joinW : List (List Char) → List Char
  | [] => []
  | [w] => w
  | w :: x :: ws => w ++ ' ' :: joinW (x :: ws)

/-- Zero-padded two-digit decimal rendering (chrono `%H` / `%M` with `Pad::Zero`). -/
def pad2 (n : Nat) : List Char := [Nat.digitChar (n / 10), Nat.digitChar (n % 10)]

/-- Models `utils::format_time` (`t.format("%H:%M")`). -/
def fmtTime (t : Nat) : List Char := pad2 (t / 3600) ++ ':' :: pad2 (t % 3600 / 60)

/-- Models `utils::resolve_prefix_for_number`, with the configured jira ticket
pfx passed explicitly instead of being read from the `TTConfig` global: a
token starting with a decimal digit is expanded to `<pfx>-<token>` when a pfx
is configured. -/
def resolve_pfx_for_number (pfx : Option String) (activity : String) : String :=
  match activity.data with
  | c :: _ =>
    if '0' ≤ c ∧ c ≤ '9' then
      match pfx with
      | some p => p ++ "-" ++ activity
      | none => activity
    else activity
  | [] => activity

/-- The `BlockData` built at the end of `Block::from_line`: the activity name
is pfx-expanded, the remaining tokens become tags, and `distribute` is
computed from the raw (unexpanded) activity token. -/
def mkBlockData (pfx : Option String) (start : Nat) (w : List Char)
    (rest : List (List Char)) : BlockData :=
  { start := start,
    activity := resolve_pfx_for_number pfx (String.mk w),
    tags := rest.map String.mk,
    distribute := is_distributable (String.mk w) }

/-- Models `Block::from_line` (on an already successfully read line; the
`io::Error` passthrough is not modelled).  The configured numeric-activity
pfx is passed explicitly. -/
def from_line (pfx : Option String) (line : String) : Except TTError Block :=
  match words line.data with
  | [] => .ok .CommentBlock
  | w1 :: ws1 =>
    if w1.head? = some '#' then .ok .CommentBlock
    else
      match parse_time w1 with
      | none => .error ⟨"cannot parse start time", line⟩
      | some start =>
        match ws1 with
        | [] => .error ⟨"Line does not contain at least 2 words", line⟩
        | w2 :: ws2 =>
          if w2.head? = some '#' then .ok .CommentBlock
          else if w2 = "really".data then
            match ws2 with
            | [] => .error ⟨"really block does not contain an activity", line⟩
            | w3 :: ws3 =>
              match parse_time w3 with
              | some manual =>
                match ws3 with
                | [] => .ok (.TimeCorrection manual)
                | _ :: _ =>
                  .error ⟨"time correction cannot have further data, i.e. use only <time> really <time>", line⟩
              | none => .ok (.ReallyBlock (mkBlockData pfx start w3 ws3))
          else
            match parse_time w2 with
            | some manual =>
              match ws2 with
              | [] => .error ⟨"really block does not contain an activity", line⟩
              | w3 :: ws3 => .ok (.NormalBlock (mkBlockData pfx manual w3 ws3))
            | none => .ok (.NormalBlock (mkBlockData pfx start w2 ws2))

/-- Models `Block::from_data`: wrap a `BlockData` as a normal or really
block. -/
def Block.from_data (data : BlockData) (really : Bool) : Block :=
  if really then .ReallyBlock data else .NormalBlock data

/-- Models `Block::to_string`: serialize the block to one log line, eliding
the block's own start time when it equals the reference timestamp. -/
def Block.to_string (b : Block) (timestamp : Nat) : String :=
  match b with
  | .NormalBlock data =>
    String.mk (joinW ([fmtTime timestamp]
      ++ (if data.start ≠ timestamp then [fmtTime data.start] else [])
      ++ [data.activity.data] ++ data.tags.map String.data))
  | .ReallyBlock data =>
    String.mk (joinW ([fmtTime timestamp] ++ ["really".data]
      ++ (if data.start ≠ timestamp then [fmtTime data.start] else [])
      ++ [data.activity.data] ++ data.tags.map String.data))
  | .TimeCorrection manual =>
    String.mk (joinW [fmtTime timestamp, "really".data, fmtTime manual])
  | .CommentBlock => ""

/-! Exact model of IEEE-754 binary64 (`f64`) arithmetic.

Every rational-arithmetic primitive below is written in terms of
`Rat.divInt`, `Rat.num`/`Rat.den`, `Rat.floor` and integer arithmetic so that
it evaluates inside the kernel (the `Mul`/`Add`/`Div` instances of `ℚ` are
irreducible); each is accompanied by a lemma identifying it with the
corresponding field operation of `ℚ`. -/

/-- Fuel-driven base-2 logarithm, equal to `Nat.log2` (which is defined by
well-founded recursion and therefore does not reduce definitionally). -/
def lg2F : Nat → Nat → Nat
  | 0, _ => 0
  | fuel + 1, n => if n ≤ 1 then 0 else lg2F fuel (n / 2) + 1

/-- Base-2 logarithm (`Nat.log2`), computable by kernel reduction. -/
def lg2 (n : Nat) : Nat := lg2F n n

/-- Fuel-driven `2 ^ k` by binary squaring (kernel-friendly: recursion depth
is logarithmic, unlike the unary recursion of `Monoid.npow`). -/
def pow2F : Nat → Nat → Nat
  | 0, _ => 1
  | _ + 1, 0 => 1
  | fuel + 1, k + 1 =>
    if (k + 1) % 2 = 0 then pow2F fuel ((k + 1) / 2) * pow2F fuel ((k + 1) / 2)
    else 2 * pow2F fuel ((k + 1) / 2) * pow2F fuel ((k + 1) / 2)

/-- Kernel-computable `2 ^ k` on `Nat`. -/
def pow2N (k : Nat) : Nat := pow2F k k

/-- The rational `2 ^ e` for a signed exponent. -/
def pow2 (e : Int) : ℚ :=
  if 0 ≤ e then Rat.divInt (pow2N e.toNat : Nat) 1 else Rat.divInt 1 (pow2N (-e).toNat : Nat)

/-- Kernel-computable rational addition. -/
def qadd (a b : ℚ) : ℚ := Rat.divInt (a.num * b.den + b.num * a.den) (a.den * b.den)

/-- Kernel-computable rational subtraction. -/
def qsub (a b : ℚ) : ℚ := Rat.divInt (a.num * b.den - b.num * a.den) (a.den * b.den)

/-- Kernel-computable rational multiplication. -/
def qmul (a b : ℚ) : ℚ := Rat.divInt (a.num * b.num) (a.den * b.den)

/-- Kernel-computable rational division (`a / 0 = 0`, as in Mathlib). -/
def qdiv (a b : ℚ) : ℚ := Rat.divInt (a.num * b.den) (a.den * b.num)

/-- Kernel-computable rational negation. -/
def qneg (a : ℚ) : ℚ := Rat.divInt (-a.num) a.den

/-- Kernel-computable cast of an integer into `ℚ`. -/
def intQ (n : Int) : ℚ := Rat.divInt n 1

/-- Floor of the base-2 logarithm of a positive rational: the numerator and
denominator bit lengths determine it up to one, settled by one comparison. -/
def log2floorQ (q : ℚ) : Int :=
  if pow2 ((lg2 q.num.toNat : Int) - (lg2 q.den : Int)) ≤ q
  then (lg2 q.num.toNat : Int) - (lg2 q.den : Int)
  else (lg2 q.num.toNat : Int) - (lg2 q.den : Int) - 1

/-- Round a rational to the nearest integer, ties to even. -/
def rhe (q : ℚ) : Int :=
  if qsub q (intQ (Rat.floor q)) < Rat.divInt 1 2 then Rat.floor q
  else if Rat.divInt 1 2 < qsub q (intQ (Rat.floor q)) then Rat.floor q + 1
  else if Rat.floor q % 2 = 0 then Rat.floor q else Rat.floor q + 1

/-- An IEEE-754 binary64 value: NaN, an infinity, or a finite value carried as
its exact rational magnitude (negative zero collapsed to `fin 0`). -/
inductive F64 where
  | fin (val : ℚ)
  | inf
  | ninf
  | nan
  deriving DecidableEq, Repr

/-- The binary64 exponent used for rounding a positive magnitude: its floored
base-2 logarithm, clamped at the bottom of the normal range (values below
`2 ^ (-1022)` round within the subnormal grid). -/
def flExp (a : ℚ) : Int :=
  if log2floorQ a < -1022 then -1022 else log2floorQ a

/-- Round a positive rational magnitude to 53 significant bits (round to
nearest, ties to even); `none` when the rounded value reaches `2 ^ 1024`
(overflow). -/
def flPos (a : ℚ) : Option ℚ :=
  if pow2 1024 ≤ qmul (intQ (rhe (qdiv a (pow2 (flExp a - 52))))) (pow2 (flExp a - 52))
  then none
  else some (qmul (intQ (rhe (qdiv a (pow2 (flExp a - 52))))) (pow2 (flExp a - 52)))

/-- Round an exact rational to the nearest binary64 value. -/
def fl (q : ℚ) : F64 :=
  if q = 0 then .fin 0
  else if q < 0 then
    match flPos (qneg q) with
    | none => .ninf
    | some v => .fin (qneg v)
  else
    match flPos q with
    | none => .inf
    | some v => .fin v

/-- binary64 addition. -/
def fadd : F64 → F64 → F64
  | .nan, _ => .nan
  | _, .nan => .nan
  | .inf, .ninf => .nan
  | .ninf, .inf => .nan
  | .inf, _ => .inf
  | _, .inf => .inf
  | .ninf, _ => .ninf
  | _, .ninf => .ninf
  | .fin a, .fin b => fl (qadd a b)

/-- binary64 subtraction. -/
def fsub : F64 → F64 → F64
  | .nan, _ => .nan
  | _, .nan => .nan
  | .inf, .inf => .nan
  | .ninf, .ninf => .nan
  | .inf, _ => .inf
  | .ninf, _ => .ninf
  | _, .inf => .ninf
  | _, .ninf => .inf
  | .fin a, .fin b => fl (qsub a b)

/-- binary64 multiplication (`0 * ∞ = NaN`). -/
def fmul : F64 → F64 → F64
  | .nan, _ => .nan
  | _, .nan => .nan
  | .inf, .inf => .inf
  | .inf, .ninf => .ninf
  | .ninf, .inf => .ninf
  | .ninf, .ninf => .inf
  | .inf, .fin b => if b = 0 then .nan else if 0 < b then .inf else .ninf
  | .fin a, .inf => if a = 0 then .nan else if 0 < a then .inf else .ninf
  | .ninf, .fin b => if b = 0 then .nan else if 0 < b then .ninf else .inf
  | .fin a, .ninf => if a = 0 then .nan else if 0 < a then .ninf else .inf
  | .fin a, .fin b => fl (qmul a b)

/-- binary64 division (`x / 0 = ±∞` for `x ≠ 0`, `0 / 0 = NaN`; all zeros in
this program are `+0`). -/
def fdiv : F64 → F64 → F64
  | .nan, _ => .nan
  | _, .nan => .nan
  | .inf, .inf => .nan
  | .inf, .ninf => .nan
  | .ninf, .inf => .nan
  | .ninf, .ninf => .nan
  | .inf, .fin b => if 0 ≤ b then .inf else .ninf
  | .ninf, .fin b => if 0 ≤ b then .ninf else .inf
  | .fin _, .inf => .fin 0
  | .fin _, .ninf => .fin 0
  | .fin a, .fin b =>
    if b = 0 then (if a = 0 then .nan else if 0 < a then .inf else .ninf)
    else fl (qdiv a b)

/-- Models Rust's `i64 as f64` conversion (round to nearest). -/
def toF64 (n : Int) : F64 := fl (intQ n)

/-- Truncation of a rational toward zero. -/
def ratTrunc (q : ℚ) : Int :=
  if 0 ≤ q then Rat.floor q else -(Rat.floor (qneg q))

/-- Models Rust's saturating `f64 as i64` cast: NaN to 0, out-of-range values
clamped to the `i64` limits, finite values truncated toward zero. -/
def f64toI64 : F64 → Int
  | .nan => 0
  | .inf => 9223372036854775807
  | .ninf => -9223372036854775808
  | .fin q =>
    let t := ratTrunc q
    if t < -9223372036854775808 then -9223372036854775808
    else if 9223372036854775807 < t then 9223372036854775807
    else t

/-- Models `chrono::Duration::seconds`, which aborts (`none`) when the value
exceeds the representable range of `i64` milliseconds. -/
def durationSeconds (s : Int) : Option Int :=
  if -9223372036854775 ≤ s ∧ s ≤ 9223372036854775 then some s else none

/-- Models `report::cutoff_sum`: the summed duration of the activities that
are neither breaks nor distributable and lie strictly below the cutoff
(zero when no cutoff is given). -/
def cutoff_sum (activities : ActivityHashMap) (cutoff : Option Int) : Int :=
  match cutoff with
  | none => 0
  | some c =>
    (activities.filterMap fun p =>
        if ¬is_break p.1 ∧ ¬is_distributable p.1 ∧ p.2.1 < c then some p.2.1 else none).foldl
      (· + ·) 0

/-- The eligibility filter of `handle_cutoff_and_distribute`: not a break,
not distributable (unless `all`), and at least the cutoff. -/
def eligible (all : Bool) (c : Int) (p : String × Int × TagMap) : Bool :=
  ¬is_break p.1 ∧ (all ∨ ¬is_distributable p.1) ∧ c ≤ p.2.1

/-- The f64 share computation of `handle_cutoff_and_distribute` for one
activity of duration `d`: `(distribute * (d as f64 / denom)) as i64`. -/
def shareOf (distribute denom : F64) (d : Int) : Int :=
  f64toI64 (fmul distribute (fdiv (toF64 d) denom))

/-- Models `report::handle_cutoff_and_distribute`.  All share arithmetic is
binary64, exactly as in the source:
`cutoff_total = cutoff_sum(...) as f64`,
`distribute = if all { cutoff_total } else { cutoff_total + summary.distribute as f64 }`,
the denominator is `work_time as f64 - distribute as f64 - cutoff_total`, and
each eligible activity receives `duration + (distribute * (duration as f64 / denominator)) as i64`.
The result is `none` when `chrono::Duration::seconds` would abort on some
share (the source program would not return then). -/
def handle_cutoff_and_distribute (summary : Summary) (cutoff : Option Int)
    (all : Bool) : Option (List (String × Int × TagMap)) :=
  let cutoff_total_d := cutoff_sum summary.activities cutoff
  let cutoff_total : F64 := toF64 cutoff_total_d
  let c := cutoff.getD 0
  let distribute : F64 :=
    if all then cutoff_total else fadd cutoff_total (toF64 summary.distribute)
  let denom : F64 := fsub (fsub (toF64 summary.work_time) (toF64 summary.distribute)) cutoff_total
  (summary.activities.filter (eligible all c)).mapM fun p =>
    (durationSeconds (shareOf distribute denom p.2.1)).map fun share =>
      (p.1, (p.2.1 + share, p.2.2))

/-- Modelled from the spec (§4.3 step 4), for comparison with the source's
binary64 computation: the adjusted duration of an eligible activity is
`own_duration + distribute_pool * (own_duration / denominator)` computed in
exact rational arithmetic and truncated to whole seconds. -/
def specAdjustedDuration (own pool denom : Int) : Int :=
  own + ratTrunc (qmul (intQ pool) (qdiv (intQ own) (intQ denom)))

/-- Token wellformedness: no character of the Unicode `White_Space` set, so
`str::split_whitespace` keeps the token in one piece. -/
def noWs (l : List Char) : Bool := l.all fun c => !isRustWs c

/-- Strictly increasing start times along a block sequence. -/
def startsIncreasing : List BlockData → Bool
  | [] => true
  | [_] => true
  | a :: b :: rest => decide (a.start < b.start) && startsIncreasing (b :: rest)

/-- Fold a sequence of `NormalBlock`s into a fresh collector. -/
def collectNormals (bs : List BlockData) : Option ProgressData :=
  bs.foldl (fun st b => add st (.NormalBlock b)) none

/-- Conditions under which a serialized `NormalBlock`/`ReallyBlock` parses
back to itself (`really` tells which of the two constructors is meant):
the start time is a whole minute of the day; the activity token is nonempty,
whitespace-free, not itself parseable as a time, left unchanged by the
numeric-pfx expansion, and carries a `distribute` flag consistent with its
spelling; for a `NormalBlock` the activity must furthermore not be the
keyword `really` and not look like a comment; and every tag is a nonempty
whitespace-free token. -/
def roundTripSafe (pfx : Option String) (really : Bool) (b : BlockData) : Prop :=
  b.start < 86400 ∧ b.start % 60 = 0 ∧
  b.activity.data ≠ [] ∧ noWs b.activity.data ∧
  parse_time b.activity.data = none ∧
  resolve_pfx_for_number pfx b.activity = b.activity ∧
  is_distributable b.activity = b.distribute ∧
  (really = false → b.activity.data.head? ≠ some '#' ∧ b.activity ≠ "really") ∧
  ∀ tag ∈ b.tags, tag.data ≠ [] ∧ noWs tag.data

/-- Concrete summary exercising the zero-denominator edge of the
distribution engine: one eligible activity of 10 seconds, with
`work_time - distribute - cutoff_total = 0`. -/
def exSummaryC2 : Summary := ⟨28800, 28810, 0, 10, [("a", (10, []))], 10⟩

/-- Concrete summary on which the binary64 share differs from the exact
formula: the pool of 49 seconds is distributed over a denominator of 49,
and the activity of 1 second receives `(49.0 * (1.0 / 49.0)) as i64 = 0`
instead of the exact `49 * (1/49) = 1`. -/
def exSummaryC3 : Summary :=
  ⟨28800, 28898, 0, 98, [("a", (1, [])), ("b", (48, [])), ("_x", (49, []))], 49⟩

/-- Concrete summary with nonzero `breaks` on which the distributed total is
`work_time`, not `work_time - breaks`. -/
def exSummaryC4 : Summary :=
  ⟨28800, 29200, 100, 300,
    [("a", (100, [])), ("b", (100, [])), ("_x", (100, [])), ("break", (100, []))], 100⟩

/-! Theorems. -/

theorem alookup_updateActivity_self (name : String) (diff : Int)
    (acts : ActivityHashMap) (dur : Int) (tm : TagMap)
    (h : alookup name acts = some (dur, tm)) :
    alookup name (updateActivity name diff acts) =
      some (dur + diff, tm.map fun tg => (tg.1, tg.2 + diff)) := by
  induction acts with
  | nil => simp [alookup] at h
  | cons p rest ih =>
    obtain ⟨k, d, tm'⟩ := p
    by_cases hk : k = name
    · subst hk
      simp only [alookup, eq_self_iff_true, if_true, Option.some.injEq, Prod.mk.injEq] at h
      obtain ⟨rfl, rfl⟩ := h
      simp [updateActivity, alookup]
    · simp only [alookup, if_neg hk] at h
      simpa [updateActivity, if_neg hk, alookup, hk] using ih h

theorem digit_not_ws (c : Char) (h : c.isDigit = true) : isRustWs c = false := by
  by_contra hw
  simp only [Bool.not_eq_false] at hw
  simp only [isRustWs, decide_eq_true_eq] at hw
  fin_cases hw <;> simp at h

theorem digit_ne_hash (c : Char) (h : c.isDigit = true) : c ≠ '#' := by
  rintro rfl; simp at h

theorem isRustWs_space : isRustWs ' ' = true := by decide

theorem isRustWs_colon : isRustWs ':' = false := by decide

theorem words_ws_cons (c : Char) (r : List Char) (h : isRustWs c = true) :
    words (c :: r) = words r := by
  cases r <;> simp [words, h]

theorem words_single : ∀ t : List Char, noWs t = true → t ≠ [] → words t = [t]
  | [], _, h2 => absurd rfl h2
  | [c], h1, _ => by
    simp only [noWs, List.all_cons, List.all_nil, Bool.and_true, Bool.not_eq_true'] at h1
    simp [words, h1]
  | c :: d :: cs, h1, _ => by
    simp only [noWs, List.all_cons, Bool.and_eq_true, Bool.not_eq_true'] at h1
    have ih := words_single (d :: cs) (by simp [noWs, List.all_cons, h1.2.1, h1.2.2]) (by simp)
    simp [words, h1.1, h1.2.1, ih]

theorem words_token_append : ∀ t r : List Char, noWs t = true → t ≠ [] →
    words (t ++ ' ' :: r) = t :: words r
  | [], _, _, h2 => absurd rfl h2
  | [c], r, h1, _ => by
    simp only [noWs, List.all_cons, List.all_nil, Bool.and_true, Bool.not_eq_true'] at h1
    cases h : words r <;> simp [words, h1, h, words_ws_cons, isRustWs_space]
  | c :: d :: cs, r, h1, _ => by
    simp only [noWs, List.all_cons, Bool.and_eq_true, Bool.not_eq_true'] at h1
    have ih := words_token_append (d :: cs) r
      (by simp [noWs, List.all_cons, h1.2.1, h1.2.2]) (by simp)
    simp only [List.cons_append] at ih ⊢
    simp [words, h1.1, h1.2.1, ih]

theorem words_joinW : ∀ ts : List (List Char), (∀ t ∈ ts, noWs t = true ∧ t ≠ []) →
    words (joinW ts) = ts
  | [], _ => rfl
  | [w], h => by
    have hw := h w (by simp)
    simpa [joinW] using words_single w hw.1 hw.2
  | w :: x :: ws, h => by
    have hw := h w (by simp)
    have ih := words_joinW (x :: ws) fun t ht => h t (by simp [ht])
    simp only [joinW]
    rw [words_token_append w (joinW (x :: ws)) hw.1 hw.2, ih]

theorem parse_time_noWs (l : List Char) (t : Nat) (h : parse_time l = some t) :
    noWs l = true ∧ ∃ c, l.head? = some c ∧ c.isDigit = true := by
  match l with
  | [] | [_] | [_, _] => simp [parse_time] at h
  | [a, c, b] =>
    simp only [parse_time] at h
    by_cases hc : (a.isDigit && (c == ':') && b.isDigit) = true
    · simp only [Bool.and_eq_true, beq_iff_eq] at hc
      obtain ⟨⟨ha, rfl⟩, hb⟩ := hc
      exact ⟨by simp [noWs, isRustWs_colon, digit_not_ws _ ha, digit_not_ws _ hb], a, rfl, ha⟩
    · rw [if_neg hc] at h; cases h
  | [a, b, c, d] =>
    simp only [parse_time] at h
    by_cases h1 : (a.isDigit && (b == ':') && c.isDigit && d.isDigit) = true
    · simp only [Bool.and_eq_true, beq_iff_eq] at h1
      obtain ⟨⟨⟨ha, rfl⟩, hc⟩, hd⟩ := h1
      exact ⟨by simp [noWs, isRustWs_colon, digit_not_ws _ ha, digit_not_ws _ hc, digit_not_ws _ hd],
        a, rfl, ha⟩
    · rw [if_neg h1] at h
      by_cases h2 : (a.isDigit && b.isDigit && (c == ':') && d.isDigit) = true
      · simp only [Bool.and_eq_true, beq_iff_eq] at h2
        obtain ⟨⟨⟨ha, hb⟩, rfl⟩, hd⟩ := h2
        exact ⟨by simp [noWs, isRustWs_colon, digit_not_ws _ ha, digit_not_ws _ hb, digit_not_ws _ hd],
          a, rfl, ha⟩
      · rw [if_neg h2] at h; cases h
  | [a, b, c, d, e] =>
    simp only [parse_time] at h
    by_cases h1 : (a.isDigit && b.isDigit && (c == ':') && d.isDigit && e.isDigit) = true
    · simp only [Bool.and_eq_true, beq_iff_eq] at h1
      obtain ⟨⟨⟨⟨ha, hb⟩, rfl⟩, hd⟩, he⟩ := h1
      exact ⟨by simp [noWs, isRustWs_colon, digit_not_ws _ ha, digit_not_ws _ hb, digit_not_ws _ hd,
        digit_not_ws _ he], a, rfl, ha⟩
    · rw [if_neg h1] at h; cases h
  | _ :: _ :: _ :: _ :: _ :: _ :: _ => simp [parse_time] at h

theorem string_data_inj (s t : String) (h : s.data = t.data) : s = t := by
  cases s; cases t; exact congrArg String.mk h

theorem string_mk_data (s : String) : String.mk s.data = s := by
  cases s; rfl

theorem digitChar_not_ws (n : Nat) : isRustWs (Nat.digitChar n) = false := by
  rcases Nat.lt_or_ge n 16 with h | h
  · interval_cases n <;> decide
  · simp only [Nat.digitChar,
      show n ≠ 0 by omega, show n ≠ 1 by omega, show n ≠ 2 by omega,
      show n ≠ 3 by omega, show n ≠ 4 by omega, show n ≠ 5 by omega,
      show n ≠ 6 by omega, show n ≠ 7 by omega, show n ≠ 8 by omega,
      show n ≠ 9 by omega, show n ≠ 10 by omega, show n ≠ 11 by omega,
      show n ≠ 12 by omega, show n ≠ 13 by omega, show n ≠ 14 by omega,
      show n ≠ 15 by omega, if_false]
    decide

theorem digitChar_spec (n : Nat) (h : n ≤ 9) :
    (Nat.digitChar n).isDigit = true ∧ digitVal (Nat.digitChar n) = n := by
  interval_cases n <;> exact ⟨by decide, by decide⟩

theorem fmtTime_noWs (t : Nat) : noWs (fmtTime t) = true := by
  simp [fmtTime, pad2, noWs, isRustWs_colon, digitChar_not_ws]

theorem fmtTime_head_digit (t : Nat) (h : t < 86400) :
    ∃ c, (fmtTime t).head? = some c ∧ c.isDigit = true := by
  refine ⟨Nat.digitChar (t / 3600 / 10), rfl, (digitChar_spec _ ?_).1⟩
  omega

theorem parse_fmtTime (t : Nat) (h1 : t < 86400) (h2 : t % 60 = 0) :
    parse_time (fmtTime t) = some t := by
  have hh : t / 3600 ≤ 23 := by omega
  have hm : t % 3600 / 60 ≤ 59 := by omega
  obtain ⟨ha1, ha2⟩ := digitChar_spec (t / 3600 / 10) (by omega)
  obtain ⟨hb1, hb2⟩ := digitChar_spec (t / 3600 % 10) (by omega)
  obtain ⟨hc1, hc2⟩ := digitChar_spec (t % 3600 / 60 / 10) (by omega)
  obtain ⟨hd1, hd2⟩ := digitChar_spec (t % 3600 / 60 % 10) (by omega)
  show parse_time [Nat.digitChar (t / 3600 / 10), Nat.digitChar (t / 3600 % 10), ':',
    Nat.digitChar (t % 3600 / 60 / 10), Nat.digitChar (t % 3600 / 60 % 10)] = some t
  simp only [parse_time, ha1, hb1, hc1, hd1, beq_self_eq_true, Bool.and_self,
    Bool.true_and, Bool.and_true, if_true]
  rw [ha2, hb2, hc2, hd2]
  unfold mkTime
  rw [if_pos (by omega)]
  congr 1
  omega

theorem map_mk_map_data (l : List String) : (l.map String.data).map String.mk = l := by
  rw [List.map_map]
  induction l with
  | nil => rfl
  | cons s rest ih => simp [string_mk_data, ih]

/-- C5 counterexample: the `NormalBlock` with activity `really` (and reference
timestamp equal to its start, 10:00) serializes to `"10:00 really"`, which
parses as a malformed really-block instead of reproducing the block. -/
theorem c5_roundtrip_counterexample :
    from_line none ((Block.NormalBlock ⟨36000, "really", [], false⟩).to_string 36000) ≠
      .ok (.NormalBlock ⟨36000, "really", [], false⟩) ∧
    from_line none ((Block.NormalBlock ⟨36000, "really", [], false⟩).to_string 36000) =
      .error ⟨"really block does not contain an activity", "10:00 really"⟩ :=
  ⟨by decide, by decide⟩

/-- C5 (amended): parsing the serialization of a round-trip-safe
`NormalBlock`/`ReallyBlock` with its own start time as the reference
timestamp reproduces the block exactly. -/
theorem c5_roundtrip (pfx : Option String) (really : Bool) (b : BlockData)
    (h : roundTripSafe pfx really b) :
    from_line pfx ((Block.from_data b really).to_string b.start) =
      .ok (Block.from_data b really) := by
  obtain ⟨hlt, hmod, hane, hanw, hapt, hres, hdist, hnorm, htags⟩ := h
  obtain ⟨cf, hcf, hcfd⟩ := fmtTime_head_digit b.start hlt
  have hfhash : ¬((fmtTime b.start).head? = some '#') := by
    rw [hcf]; intro he; injection he with he; exact digit_ne_hash cf hcfd he
  have hfne : fmtTime b.start ≠ [] := by
    intro he; rw [he] at hcf; cases hcf
  have hfpt := parse_fmtTime b.start hlt hmod
  cases really with
  | true =>
    have hline : (Block.from_data b true).to_string b.start =
        String.mk (joinW (fmtTime b.start :: "really".data :: b.activity.data ::
          b.tags.map String.data)) := by
      simp [Block.from_data, Block.to_string]
    have hws : words (String.mk (joinW (fmtTime b.start :: "really".data ::
        b.activity.data :: b.tags.map String.data))).data =
        fmtTime b.start :: "really".data :: b.activity.data :: b.tags.map String.data := by
      refine words_joinW _ ?_
      intro t ht
      simp only [List.mem_cons] at ht
      rcases ht with rfl | rfl | rfl | hmem
      · exact ⟨fmtTime_noWs b.start, hfne⟩
      · exact ⟨by decide, by decide⟩
      · exact ⟨hanw, hane⟩
      · obtain ⟨tag, htag, rfl⟩ := List.mem_map.1 hmem
        exact ⟨(htags tag htag).2, (htags tag htag).1⟩
    rw [hline]
    simp only [from_line]
    rw [hws]
    dsimp only
    rw [if_neg hfhash]
    simp only [hfpt]
    rw [if_neg (by decide : ¬(("really".data : List Char).head? = some '#'))]
    simp only [if_true, hapt]
    simp only [mkBlockData, string_mk_data, hres, hdist, map_mk_map_data, Block.from_data,
      if_true]
  | false =>
    obtain ⟨hahash, hareally⟩ := hnorm rfl
    have hline : (Block.from_data b false).to_string b.start =
        String.mk (joinW (fmtTime b.start :: b.activity.data ::
          b.tags.map String.data)) := by
      simp [Block.from_data, Block.to_string]
    have hws : words (String.mk (joinW (fmtTime b.start ::
        b.activity.data :: b.tags.map String.data))).data =
        fmtTime b.start :: b.activity.data :: b.tags.map String.data := by
      refine words_joinW _ ?_
      intro t ht
      simp only [List.mem_cons] at ht
      rcases ht with rfl | rfl | hmem
      · exact ⟨fmtTime_noWs b.start, hfne⟩
      · exact ⟨hanw, hane⟩
      · obtain ⟨tag, htag, rfl⟩ := List.mem_map.1 hmem
        exact ⟨(htags tag htag).2, (htags tag htag).1⟩
    rw [hline]
    simp only [from_line]
    rw [hws]
    dsimp only
    rw [if_neg hfhash]
    simp only [hfpt]
    rw [if_neg hahash]
    rw [if_neg (fun hd => hareally (string_data_inj _ _ hd))]
    simp only [hapt]
    simp only [mkBlockData, string_mk_data, hres, hdist, map_mk_map_data, Block.from_data,
      Bool.false_eq_true, if_false]

theorem c5_roundtrip_witness :
    from_line none ((Block.from_data ⟨36300, "task", ["=x", "tag1"], false⟩ false).to_string 36300) =
      .ok (Block.from_data ⟨36300, "task", ["=x", "tag1"], false⟩ false) :=
  c5_roundtrip none false ⟨36300, "task", ["=x", "tag1"], false⟩
    (by refine ⟨by decide, by decide, by decide, by decide, by decide, by decide,
      by decide, fun _ => ⟨by decide, by decide⟩, ?_⟩
        intro tag htag
        fin_cases htag <;> exact ⟨by decide, by decide⟩)

/-- C9: a line `T1 really T2` whose two time tokens both parse as `HH:MM`
yields `TimeCorrection(T2)`, and any further token after `T2` instead yields
a `ParseError` with the time-correction message carrying the whole line. -/
theorem c9_time_correction_parse (pfx : Option String) (s1 s2 r : String) (t1 t2 : Nat)
    (h1 : parse_time s1.data = some t1) (h2 : parse_time s2.data = some t2) :
    from_line pfx (s1 ++ " really " ++ s2) = .ok (.TimeCorrection t2) ∧
    (words r.data ≠ [] →
      from_line pfx (s1 ++ " really " ++ s2 ++ " " ++ r) =
        .error ⟨"time correction cannot have further data, i.e. use only <time> really <time>",
          s1 ++ " really " ++ s2 ++ " " ++ r⟩) := by
  obtain ⟨hn1, c1, hh1, hd1⟩ := parse_time_noWs _ _ h1
  obtain ⟨hn2, c2, hh2, hd2⟩ := parse_time_noWs _ _ h2
  have hne1 : s1.data ≠ [] := by
    intro he; rw [he] at hh1; cases hh1
  have hne2 : s2.data ≠ [] := by
    intro he; rw [he] at hh2; cases hh2
  have hhash1 : ¬(s1.data.head? = some '#') := by
    rw [hh1]; intro he; injection he with he; exact digit_ne_hash c1 hd1 he
  have hhashr : ¬(("really".data : List Char).head? = some '#') := by decide
  constructor
  · have hdata : (s1 ++ " really " ++ s2).data =
        s1.data ++ ' ' :: ("really".data ++ ' ' :: s2.data) := by
      simp only [String.data_append, List.append_assoc]
      rfl
    have hwords : words (s1 ++ " really " ++ s2).data =
        [s1.data, "really".data, s2.data] := by
      rw [hdata, words_token_append _ _ hn1 hne1,
        words_token_append _ _ (by decide) (by decide), words_single _ hn2 hne2]
    simp only [from_line, hwords]
    rw [if_neg hhash1]
    simp only [h1]
    rw [if_neg hhashr]
    simp only [if_true, h2]
  · intro hr
    have hdata : (s1 ++ " really " ++ s2 ++ " " ++ r).data =
        s1.data ++ ' ' :: ("really".data ++ ' ' :: (s2.data ++ ' ' :: r.data)) := by
      simp only [String.data_append, List.append_assoc]
      rfl
    have hwords : words (s1 ++ " really " ++ s2 ++ " " ++ r).data =
        s1.data :: "really".data :: s2.data :: words r.data := by
      rw [hdata, words_token_append _ _ hn1 hne1,
        words_token_append _ _ (by decide) (by decide),
        words_token_append _ _ hn2 hne2]
    match hwr : words r.data with
    | [] => exact absurd hwr hr
    | w :: ws =>
      rw [hwr] at hwords
      simp only [from_line, hwords]
      rw [if_neg hhash1]
      simp only [h1]
      rw [if_neg hhashr]
      simp only [if_true, h2]

theorem c9_time_correction_parse_witness :
    from_line none ("10:05" ++ " really " ++ "10:00") = .ok (.TimeCorrection 36000) ∧
    from_line none ("10:05" ++ " really " ++ "10:00" ++ " " ++ "x") =
      .error ⟨"time correction cannot have further data, i.e. use only <time> really <time>",
        "10:05" ++ " really " ++ "10:00" ++ " " ++ "x"⟩ :=
  ⟨(c9_time_correction_parse none "10:05" "10:00" "x" 36300 36000 (by decide) (by decide)).1,
    (c9_time_correction_parse none "10:05" "10:00" "x" 36300 36000
      (by decide) (by decide)).2 (by decide)⟩

/-- C7: on an open collector, a `ReallyBlock` replaces the open block's
activity, tags and distribute flag, keeps its start time, and leaves the
summary (and the previously closed block) untouched. -/
theorem c7_really_replaces_identity (st : ProgressData) (b : BlockData) :
    add (some st) (.ReallyBlock b) =
      some ⟨st.summary, ⟨st.last.start, b.activity, b.tags, b.distribute⟩, st.prev⟩ := rfl

/-- C8: on a fresh collector (no block ever opened), `ReallyBlock`,
`TimeCorrection` and `CommentBlock` are silently ignored, and `finalize`
returns `None` with and without a closing time. -/
theorem c8_empty_collector_noops (b : BlockData) (t t' : Nat) :
    add none (.ReallyBlock b) = none ∧
    add none (.TimeCorrection t) = none ∧
    add none .CommentBlock = none ∧
    finalize none (some t') = none ∧
    finalize none none = none :=
  ⟨rfl, rfl, rfl, rfl, rfl⟩

/-- C10: `finalize` without a closing time returns the summary as it stands
(the still-open block contributes nothing), while the final-activity fields
identify the open block; in particular after exactly one `NormalBlock` the
summary has zero totals, an empty activity map and `end = start = b.start`. -/
theorem c10_finalize_without_closing (st : ProgressData) (b : BlockData) :
    finalize (some st) none =
      some ⟨st.summary, st.last.activity,
        st.last.tags.find? (fun s => s.data.head? == some '='), st.last.start⟩ ∧
    finalize (add none (.NormalBlock b)) none =
      some ⟨⟨b.start, b.start, 0, 0, [], 0⟩, b.activity,
        b.tags.find? (fun s => s.data.head? == some '='), b.start⟩ :=
  ⟨rfl, rfl⟩

theorem collectNormals_inv (bs : List BlockData) (st : ProgressData)
    (h1 : st.summary.work_time + st.summary.breaks =
      (st.summary.«end» : Int) - (st.summary.start : Int))
    (h2 : st.summary.«end» = st.last.start) :
    ∀ d, bs.foldl (fun s b => add s (.NormalBlock b)) (some st) = some d →
      d.summary.work_time + d.summary.breaks =
        (d.summary.«end» : Int) - (d.summary.start : Int) ∧
      d.summary.«end» = d.last.start := by
  induction bs generalizing st with
  | nil =>
    intro d hd
    simp only [List.foldl_nil, Option.some.injEq] at hd
    subst hd; exact ⟨h1, h2⟩
  | cons b rest ih =>
    intro d hd
    obtain ⟨⟨sstart, send, sbr, swt, sact, sdist⟩, slast, sprev⟩ := st
    simp only [List.foldl_cons] at hd
    replace h1 : swt + sbr = (send : Int) - (sstart : Int) := h1
    replace h2 : send = slast.start := h2
    refine ih _ ?_ rfl d hd
    dsimp only [add]
    by_cases hb : is_break slast.activity
    · simp only [hb, if_true]
      omega
    · simp only [hb, Bool.false_eq_true, if_false]
      omega

/-- C6: folding only `NormalBlock`s with strictly increasing starts into a
fresh collector yields a summary with
`work_time + breaks = end - start`. -/
theorem c6_work_plus_breaks (bs : List BlockData)
    (hmono : startsIncreasing bs = true) :
    ∀ d, collectNormals bs = some d →
      d.summary.work_time + d.summary.breaks =
        (d.summary.«end» : Int) - (d.summary.start : Int) := by
  intro d hd
  match bs, hd with
  | b :: rest, hd =>
    have := collectNormals_inv rest ⟨⟨b.start, b.start, 0, 0, [], 0⟩, b, none⟩
      (by simp) rfl d (by simpa [collectNormals, add] using hd)
    exact this.1

theorem c6_work_plus_breaks_witness :
    (⟨⟨30600, 37800, 1800, 5400, [("setup", (5400, [])), ("break", (1800, []))], 0⟩,
        ⟨37800, "x", [], false⟩, some ⟨36000, "break", [], false⟩⟩ :
      ProgressData).summary.work_time +
      (⟨⟨30600, 37800, 1800, 5400, [("setup", (5400, [])), ("break", (1800, []))], 0⟩,
          ⟨37800, "x", [], false⟩, some ⟨36000, "break", [], false⟩⟩ :
        ProgressData).summary.breaks =
      ((⟨⟨30600, 37800, 1800, 5400, [("setup", (5400, [])), ("break", (1800, []))], 0⟩,
          ⟨37800, "x", [], false⟩, some ⟨36000, "break", [], false⟩⟩ :
        ProgressData).summary.«end» : Int) -
      ((⟨⟨30600, 37800, 1800, 5400, [("setup", (5400, [])), ("break", (1800, []))], 0⟩,
          ⟨37800, "x", [], false⟩, some ⟨36000, "break", [], false⟩⟩ :
        ProgressData).summary.start : Int) :=
  c6_work_plus_breaks
    [⟨30600, "setup", [], false⟩, ⟨36000, "break", [], false⟩, ⟨37800, "x", [], false⟩]
    (by decide) _ (by decide)

/-- C1: on an open collector, `TimeCorrection t` moves the open block's start
and `summary.end` to `t`; with `diff = t - old start`, when a previously
closed block exists, `diff` is added to that block's recorded activity
duration and every one of its tag durations, to `breaks` or `work_time`
according to `is_break`, and to `distribute` when its flag was set; with no
previously closed block, `summary.start` is moved to `t` instead and nothing
else changes. -/
theorem c1_time_correction (st : ProgressData) (t : Nat) (st' : ProgressData)
    (h : add (some st) (.TimeCorrection t) = some st') :
      st'.last.start = t ∧
      st'.last.activity = st.last.activity ∧
      st'.last.tags = st.last.tags ∧
      st'.last.distribute = st.last.distribute ∧
      st'.summary.«end» = t ∧
      st'.prev = st.prev ∧
      (∀ before, st.prev = some before →
        st'.summary.start = st.summary.start ∧
        st'.summary.breaks =
          (if is_break before.activity then
            st.summary.breaks + ((t : Int) - (st.last.start : Int))
          else st.summary.breaks) ∧
        st'.summary.work_time =
          (if is_break before.activity then st.summary.work_time
          else st.summary.work_time + ((t : Int) - (st.last.start : Int))) ∧
        st'.summary.distribute =
          (if before.distribute then
            st.summary.distribute + ((t : Int) - (st.last.start : Int))
          else st.summary.distribute) ∧
        ∀ dur tm, alookup before.activity st.summary.activities = some (dur, tm) →
          alookup before.activity st'.summary.activities =
            some (dur + ((t : Int) - (st.last.start : Int)),
              tm.map fun tg => (tg.1, tg.2 + ((t : Int) - (st.last.start : Int))))) ∧
      (st.prev = none → st'.summary = { st.summary with start := t, «end» := t }) := by
  cases hp : st.prev with
  | none =>
    simp only [add, hp, Option.some.injEq] at h
    subst h
    exact ⟨rfl, rfl, rfl, rfl, rfl, rfl,
      fun before hb => Option.noConfusion hb, fun _ => rfl⟩
  | some before =>
    simp only [add, hp, Option.some.injEq] at h
    subst h
    refine ⟨rfl, rfl, rfl, rfl, rfl, rfl, ?_, fun h' => Option.noConfusion h'⟩
    intro b hb
    injection hb with hb; subst hb
    refine ⟨rfl, rfl, rfl, rfl, ?_⟩
    intro dur tm hl
    exact alookup_updateActivity_self _ _ _ _ _ hl

theorem c1_time_correction_witness :
    (⟨⟨30600, 36600, 5, 700, [("p", (607, [("x", 603)]))], 602⟩,
        ⟨36600, "cur", [], false⟩, some ⟨30600, "p", [], true⟩⟩ :
      ProgressData).last.start = 36600 ∧
    (⟨⟨30600, 36600, 5, 700, [("p", (607, [("x", 603)]))], 602⟩,
        ⟨36600, "cur", [], false⟩, some ⟨30600, "p", [], true⟩⟩ :
      ProgressData).summary.«end» = 36600 ∧
    alookup "p" (⟨⟨30600, 36600, 5, 700, [("p", (607, [("x", 603)]))], 602⟩,
        ⟨36600, "cur", [], false⟩, some ⟨30600, "p", [], true⟩⟩ :
      ProgressData).summary.activities = some (7 + 600, [("x", 3 + 600)]) := by
  obtain ⟨hstart, -, -, -, hend, -, hsome, -⟩ :=
    c1_time_correction ⟨⟨30600, 36000, 5, 100, [("p", (7, [("x", 3)]))], 2⟩,
      ⟨36000, "cur", [], false⟩, some ⟨30600, "p", [], true⟩⟩ 36600
      ⟨⟨30600, 36600, 5, 700, [("p", (607, [("x", 603)]))], 602⟩,
        ⟨36600, "cur", [], false⟩, some ⟨30600, "p", [], true⟩⟩ (by decide)
  obtain ⟨-, -, -, -, hact⟩ := hsome ⟨30600, "p", [], true⟩ rfl
  exact ⟨hstart, hend, hact 7 [("x", 3)] (by decide)⟩

theorem pow2F_eq : ∀ fuel k, k < 2 ^ fuel → pow2F fuel k = 2 ^ k := by
  intro fuel
  induction fuel with
  | zero => intro k hk; interval_cases k; rfl
  | succ fuel ih =>
    intro k hk
    match k with
    | 0 => rfl
    | j + 1 =>
      have h2 : 2 ^ (fuel + 1) = 2 * 2 ^ fuel := by rw [pow_succ]; ring
      have ihh := ih ((j + 1) / 2) (by omega)
      by_cases hm : (j + 1) % 2 = 0
      · rw [pow2F, if_pos hm, ihh, ← pow_add]
        congr 1
        omega
      · rw [pow2F, if_neg hm, mul_assoc, ihh, ← pow_add, ← pow_succ']
        congr 1
        omega

theorem pow2N_eq (k : Nat) : pow2N k = 2 ^ k := pow2F_eq k k (Nat.lt_two_pow k)

theorem lg2F_eq : ∀ fuel n, n ≤ fuel → lg2F fuel n = Nat.log2 n := by
  intro fuel
  induction fuel with
  | zero =>
    intro n hn
    interval_cases n
    rw [lg2F, Nat.log2]
    norm_num
  | succ fuel ih =>
    intro n hn
    rw [lg2F]
    by_cases h1 : n ≤ 1
    · rw [if_pos h1, Nat.log2, if_neg (by omega)]
    · rw [if_neg h1, ih (n / 2) (by omega)]
      conv_rhs => rw [Nat.log2]
      rw [if_pos (by omega)]

theorem lg2_eq (n : Nat) : lg2 n = Nat.log2 n := lg2F_eq n n le_rfl

theorem intQ_eq (n : Int) : intQ n = (n : ℚ) := Rat.divInt_one n

theorem qneg_eq (a : ℚ) : qneg a = -a := by
  rw [qneg, Rat.divInt_eq_div]
  push_cast
  rw [neg_div, Rat.num_div_den]

theorem qadd_eq (a b : ℚ) : qadd a b = a + b := by
  have ha : ((a.den : ℚ)) ≠ 0 := Nat.cast_ne_zero.mpr a.den_nz
  have hb : ((b.den : ℚ)) ≠ 0 := Nat.cast_ne_zero.mpr b.den_nz
  rw [qadd, Rat.divInt_eq_div]
  conv_rhs => rw [← Rat.num_div_den a, ← Rat.num_div_den b]
  push_cast
  field_simp
  try ring

theorem qsub_eq (a b : ℚ) : qsub a b = a - b := by
  have ha : ((a.den : ℚ)) ≠ 0 := Nat.cast_ne_zero.mpr a.den_nz
  have hb : ((b.den : ℚ)) ≠ 0 := Nat.cast_ne_zero.mpr b.den_nz
  rw [qsub, Rat.divInt_eq_div]
  conv_rhs => rw [← Rat.num_div_den a, ← Rat.num_div_den b]
  push_cast
  field_simp
  try ring

theorem qmul_eq (a b : ℚ) : qmul a b = a * b := by
  have ha : ((a.den : ℚ)) ≠ 0 := Nat.cast_ne_zero.mpr a.den_nz
  have hb : ((b.den : ℚ)) ≠ 0 := Nat.cast_ne_zero.mpr b.den_nz
  rw [qmul, Rat.divInt_eq_div]
  conv_rhs => rw [← Rat.num_div_den a, ← Rat.num_div_den b]
  push_cast
  field_simp
  try ring

theorem qdiv_eq (a b : ℚ) : qdiv a b = a / b := by
  by_cases hb : b = 0
  · subst hb
    rw [qdiv]
    norm_num
  · have ha : ((a.den : ℚ)) ≠ 0 := Nat.cast_ne_zero.mpr a.den_nz
    have hbd : ((b.den : ℚ)) ≠ 0 := Nat.cast_ne_zero.mpr b.den_nz
    have hbn : ((b.num : ℚ)) ≠ 0 := Int.cast_ne_zero.mpr (Rat.num_ne_zero.mpr hb)
    rw [qdiv, Rat.divInt_eq_div]
    conv_rhs => rw [← Rat.num_div_den a, ← Rat.num_div_den b]
    push_cast
    rw [div_div_div_eq]

theorem pow2_eq (e : Int) : pow2 e = (2 : ℚ) ^ e := by
  rw [pow2]
  by_cases he : 0 ≤ e
  · rw [if_pos he, pow2N_eq, Rat.divInt_one]
    push_cast
    rw [← zpow_natCast, Int.toNat_of_nonneg he]
  · rw [if_neg he, pow2N_eq, Rat.divInt_eq_div]
    push_cast
    rw [one_div, ← zpow_natCast, ← zpow_neg]
    congr 1
    omega

theorem rat_floor_intCast (m : Int) : Rat.floor ((m : ℚ)) = m := by
  rw [Rat.floor_def']
  rw [Rat.num_intCast, Rat.den_intCast]
  simp

theorem rhe_int (m : Int) : rhe ((m : ℚ)) = m := by
  rw [rhe, rat_floor_intCast, intQ_eq]
  rw [show qsub ((m : ℚ)) ((m : ℚ)) = 0 from by rw [qsub_eq]; ring]
  rw [if_pos]
  rw [Rat.divInt_eq_div]
  norm_num

theorem log2floorQ_int (n : Int) (h1 : 1 ≤ n) :
    log2floorQ ((n : ℚ)) = Nat.log2 n.toNat := by
  have h0 : n.toNat ≠ 0 := by omega
  rw [log2floorQ, Rat.num_intCast, Rat.den_intCast]
  rw [show lg2 1 = 0 from rfl, lg2_eq, Nat.cast_zero]
  have hle : pow2 ((Nat.log2 n.toNat : Int) - 0) ≤ (n : ℚ) := by
    rw [pow2_eq, sub_zero, zpow_natCast]
    have h2 : ((2 : ℚ)) ^ Nat.log2 n.toNat ≤ ((n.toNat : ℕ) : ℚ) := by
      exact_mod_cast Nat.log2_self_le h0
    have h3 : ((n.toNat : ℕ) : ℚ) = ((n : ℤ) : ℚ) := by
      exact_mod_cast Int.toNat_of_nonneg (show (0 : ℤ) ≤ n by omega)
    rw [h3] at h2
    exact h2
  rw [if_pos hle]
  omega

theorem flExp_int (n : Int) (h1 : 1 ≤ n) : flExp ((n : ℚ)) = Nat.log2 n.toNat := by
  rw [flExp, log2floorQ_int n h1, if_neg (by omega)]

theorem flPos_int (n : Int) (h1 : 1 ≤ n) (h2 : n ≤ 2 ^ 53) :
    flPos ((n : ℚ)) = some ((n : ℚ)) := by
  have h0 : n.toNat ≠ 0 := by omega
  have hself : 2 ^ Nat.log2 n.toNat ≤ n.toNat := Nat.log2_self_le h0
  have hL53 : Nat.log2 n.toNat ≤ 53 := by
    by_contra hc
    have hm : (2 : ℕ) ^ 54 ≤ 2 ^ Nat.log2 n.toNat :=
      Nat.pow_le_pow_right (by norm_num) (by omega)
    have he54 : (2 : ℕ) ^ 54 = 18014398509481984 := by norm_num
    have he53 : (2 : ℤ) ^ 53 = 9007199254740992 := by norm_num
    omega
  have hE := flExp_int n h1
  have key : ∃ M : Int, qdiv ((n : ℚ)) (pow2 ((Nat.log2 n.toNat : Int) - 52)) = ((M : ℚ)) ∧
      qmul ((M : ℚ)) (pow2 ((Nat.log2 n.toNat : Int) - 52)) = ((n : ℚ)) := by
    set L := Nat.log2 n.toNat with hLdef
    by_cases hL : L ≤ 52
    · refine ⟨n * 2 ^ (52 - L), ?_, ?_⟩
      · rw [qdiv_eq, pow2_eq]
        push_cast
        rw [← zpow_natCast (2 : ℚ) (52 - L)]
        rw [div_eq_iff (by positivity), mul_assoc, ← zpow_add₀ (two_ne_zero)]
        rw [show ((52 - L : ℕ) : Int) + ((L : Int) - 52) = 0 from by omega]
        norm_num
      · rw [qmul_eq, pow2_eq]
        push_cast
        rw [← zpow_natCast (2 : ℚ) (52 - L)]
        rw [mul_assoc, ← zpow_add₀ (two_ne_zero)]
        rw [show ((52 - L : ℕ) : Int) + ((L : Int) - 52) = 0 from by omega]
        norm_num
    · have hL2 : L = 53 := by omega
      have hn : n = 2 ^ 53 := by
        have he53 : (2 : ℕ) ^ 53 = 9007199254740992 := by norm_num
        have he53i : (2 : ℤ) ^ 53 = 9007199254740992 := by norm_num
        rw [hL2] at hself
        omega
      subst hn
      refine ⟨2 ^ 52, ?_, ?_⟩
      · rw [qdiv_eq, pow2_eq, hL2]
        rw [show (((53 : ℕ) : Int) - 52) = 1 by norm_num, zpow_one]
        rw [div_eq_iff (by norm_num : (2 : ℚ) ≠ 0)]
        push_cast
        ring
      · rw [qmul_eq, pow2_eq, hL2]
        rw [show (((53 : ℕ) : Int) - 52) = 1 by norm_num, zpow_one]
        push_cast
        ring
  obtain ⟨M, hq, hv⟩ := key
  rw [flPos, hE, hq, rhe_int, intQ_eq, hv]
  rw [if_neg]
  intro hc
  rw [pow2_eq] at hc
  have hb : ((n : ℚ)) < (2 : ℚ) ^ (1024 : Int) := by
    have hlt : (n : ℚ) ≤ ((2 : ℤ) ^ 53 : ℚ) := by exact_mod_cast h2
    have h53 : ((2 : ℤ) ^ 53 : ℚ) < (2 : ℚ) ^ (1024 : Int) := by
      push_cast
      rw [show ((1024 : Int)) = ((1024 : ℕ) : Int) from rfl, zpow_natCast]
      norm_num
    exact lt_of_le_of_lt hlt h53
  exact absurd hc (not_le.mpr hb)

theorem fl_intCast (z : Int) (hz : |z| ≤ 2 ^ 53) : fl ((z : ℚ)) = .fin ((z : ℚ)) := by
  obtain ⟨hz1, hz2⟩ := abs_le.1 hz
  rcases lt_trichotomy z 0 with hneg | rfl | hpos
  · have h0 : ¬((z : ℚ) = 0) := by exact_mod_cast hneg.ne
    have hlt : ((z : ℚ)) < 0 := by exact_mod_cast hneg
    have hq : qneg ((z : ℚ)) = ((-z : ℤ) : ℚ) := by rw [qneg_eq]; push_cast; ring
    rw [fl, if_neg h0, if_pos hlt, hq, flPos_int (-z) (by omega) (by omega)]
    dsimp only
    rw [qneg_eq]
    congr 1
    push_cast
    ring
  · norm_num [fl]
  · have h0 : ¬((z : ℚ) = 0) := by
      have : (0 : ℚ) < (z : ℚ) := by exact_mod_cast hpos
      exact ne_of_gt this
    have hlt : ¬(((z : ℚ)) < 0) := by
      have h' : (0 : ℚ) < (z : ℚ) := by exact_mod_cast hpos
      exact not_lt.mpr h'.le
    rw [fl, if_neg h0, if_neg hlt, flPos_int z (by omega) (by omega)]

theorem toF64_int (z : Int) (hz : |z| ≤ 2 ^ 53) : toF64 z = .fin ((z : ℚ)) := by
  rw [toF64, intQ_eq]
  exact fl_intCast z hz

theorem fadd_int (a b : Int) (h : |a + b| ≤ 2 ^ 53) :
    fadd (.fin ((a : ℚ))) (.fin ((b : ℚ))) = .fin (((a + b : Int) : ℚ)) := by
  show fl (qadd ((a : ℚ)) ((b : ℚ))) = _
  rw [show qadd ((a : ℚ)) ((b : ℚ)) = (((a + b : Int) : ℚ)) from by rw [qadd_eq]; push_cast; ring]
  exact fl_intCast _ h

theorem fsub_int (a b : Int) (h : |a - b| ≤ 2 ^ 53) :
    fsub (.fin ((a : ℚ))) (.fin ((b : ℚ))) = .fin (((a - b : Int) : ℚ)) := by
  show fl (qsub ((a : ℚ)) ((b : ℚ))) = _
  rw [show qsub ((a : ℚ)) ((b : ℚ)) = (((a - b : Int) : ℚ)) from by rw [qsub_eq]; push_cast; ring]
  exact fl_intCast _ h

theorem durationSeconds_eq (x y : Int) (h : durationSeconds x = some y) : y = x := by
  rw [durationSeconds] at h
  split at h
  · injection h with h; exact h.symm
  · cases h

theorem mapM_shares (f : Int → Int) :
    ∀ (l res : List (String × Int × TagMap)),
    (l.mapM fun p => (durationSeconds (f p.2.1)).map fun share =>
      (p.1, (p.2.1 + share, p.2.2))) = some res →
    res = l.map fun p => (p.1, (p.2.1 + f p.2.1, p.2.2)) := by
  intro l
  induction l with
  | nil =>
    intro res h
    simp only [List.mapM_nil, pure, Option.some.injEq] at h
    simp [← h]
  | cons p rest ih =>
    intro res h
    simp only [List.mapM_cons] at h
    match hd : durationSeconds (f p.2.1) with
    | none => rw [hd] at h; cases h
    | some sh =>
      rw [hd] at h
      have hsh := durationSeconds_eq _ _ hd
      subst hsh
      match hrest : rest.mapM fun p => (durationSeconds (f p.2.1)).map fun share =>
          (p.1, (p.2.1 + share, p.2.2)) with
      | none =>
        rw [hrest] at h
        cases h
      | some res' =>
        rw [hrest] at h
        simp only [Option.pure_def, Option.bind_eq_bind, Option.map_some',
          Option.some_bind, Option.some.injEq] at h
        rw [← h, ih res' hrest]
        simp

theorem alookup_none_of_not_mem (n : String) :
    ∀ (l : List (String × α)), n ∉ l.map Prod.fst → alookup n l = none := by
  intro l
  induction l with
  | nil => intro _; rfl
  | cons p rest ih =>
    intro h
    simp only [List.map_cons, List.mem_cons] at h
    push_neg at h
    rw [alookup, if_neg (fun he => h.1 he.symm), ih h.2]

theorem alookup_map_filter_none (n : String) (pred : String × Int × TagMap → Bool)
    (f : Int → Int) :
    ∀ (l : List (String × Int × TagMap)), n ∉ l.map Prod.fst →
    alookup n ((l.filter pred).map fun p => (p.1, (p.2.1 + f p.2.1, p.2.2))) = none := by
  intro l
  induction l with
  | nil => intro _; rfl
  | cons p rest ih =>
    intro h
    simp only [List.map_cons, List.mem_cons] at h
    push_neg at h
    rw [List.filter_cons]
    by_cases hp : pred p
    · rw [if_pos hp]
      simp only [List.map_cons]
      rw [alookup, if_neg (fun he => h.1 he.symm), ih h.2]
    · rw [if_neg hp, ih h.2]

theorem alookup_filter_map (pred : String × Int × TagMap → Bool) (f : Int → Int)
    (n : String) (v : Int) (tm : TagMap) :
    ∀ (l : List (String × Int × TagMap)), (l.map Prod.fst).Nodup →
    (alookup n ((l.filter pred).map fun p => (p.1, (p.2.1 + f p.2.1, p.2.2))) = some (v, tm) ↔
      ∃ d, alookup n l = some (d, tm) ∧ pred (n, (d, tm)) = true ∧ v = d + f d) := by
  intro l
  induction l with
  | nil =>
    intro _
    constructor
    · intro h; cases h
    · rintro ⟨d, hd, -, -⟩; cases hd
  | cons p rest ih =>
    intro hnodup
    obtain ⟨k, d0, tm0⟩ := p
    simp only [List.map_cons, List.nodup_cons] at hnodup
    by_cases hk : k = n
    · subst hk
      rw [List.filter_cons]
      by_cases hp : pred (k, (d0, tm0))
      · rw [if_pos hp]
        simp only [List.map_cons]
        rw [alookup, if_pos rfl]
        constructor
        · intro h
          rw [Option.some.injEq, Prod.mk.injEq] at h
          refine ⟨d0, by rw [alookup, if_pos rfl, h.2], ?_, h.1.symm⟩
          rw [← h.2]
          exact hp
        · rintro ⟨d, hd, hpred, hv⟩
          rw [alookup, if_pos rfl, Option.some.injEq, Prod.mk.injEq] at hd
          rw [Option.some.injEq, Prod.mk.injEq]
          exact ⟨by rw [hv, ← hd.1], hd.2⟩
      · rw [if_neg hp]
        constructor
        · intro h
          rw [alookup_map_filter_none k pred f rest hnodup.1] at h
          cases h
        · rintro ⟨d, hd, hpred, hv⟩
          rw [alookup, if_pos rfl, Option.some.injEq, Prod.mk.injEq] at hd
          rw [← hd.1, ← hd.2] at hpred
          exact absurd hpred hp
    · rw [List.filter_cons]
      have hR : alookup n ((k, (d0, tm0)) :: rest) = alookup n rest := by
        rw [alookup, if_neg hk]
      by_cases hp : pred (k, (d0, tm0))
      · rw [if_pos hp]
        simp only [List.map_cons]
        rw [alookup, if_neg hk, hR]
        exact ih hnodup.2
      · rw [if_neg hp, hR]
        exact ih hnodup.2

theorem sum_map_add (f g : String × Int × TagMap → Int) :
    ∀ l : List (String × Int × TagMap),
      (l.map fun p => f p + g p).sum = (l.map f).sum + (l.map g).sum := by
  intro l
  induction l with
  | nil => rfl
  | cons p rest ih =>
    simp only [List.map_cons, List.sum_cons, ih]
    ring

theorem sum_filter_split (q : String × Int × TagMap → Bool)
    (pred : String × Int × TagMap → Bool) (f : String × Int × TagMap → Int) :
    ∀ l : List (String × Int × TagMap),
      ((l.filter pred).map f).sum =
        ((l.filter fun a => pred a && q a).map f).sum +
        ((l.filter fun a => pred a && !q a).map f).sum := by
  intro l
  induction l with
  | nil => rfl
  | cons p rest ih =>
    simp only [List.filter_cons]
    by_cases hp : pred p
    · by_cases hq : q p
      · simp only [hp, hq, Bool.not_true, Bool.and_self, Bool.true_and, Bool.and_false,
          Bool.false_eq_true, if_true, if_false, List.map_cons, List.sum_cons]
        rw [ih]
        ring
      · simp only [hp, hq, Bool.not_false, Bool.true_and, Bool.and_false, Bool.and_true,
          Bool.false_eq_true, if_true, if_false, List.map_cons, List.sum_cons]
        rw [ih]
        ring
    · simp only [hp, Bool.false_and, if_false]
      exact ih

theorem distributable_not_break (s : String) (h : is_distributable s = true) :
    is_break s = false := by
  by_contra hb
  simp only [Bool.not_eq_false] at hb
  rw [is_break] at hb
  rcases Bool.or_eq_true_iff.mp hb with h1 | h1
  · have : s = "break" := by simpa using h1
    subst this; simp [is_distributable] at h
  · have : s = "end" := by simpa using h1
    subst this; simp [is_distributable] at h

/-- C3 counterexample: on `exSummaryC3` (cutoff absent, `all = false`) the
claim's exact formula gives activity `a` the adjusted duration
`1 + trunc(49 * (1/49)) = 2`, but the source computes the share in binary64:
`(49.0 * (1.0 / 49.0)) as i64 = trunc(0.9999999999999999) = 0`, so `a` is
reported with duration `1`. -/
theorem c3_exact_formula_counterexample :
    handle_cutoff_and_distribute exSummaryC3 none false =
      some [("a", (1, [])), ("b", (96, []))] ∧
    specAdjustedDuration 1 (cutoff_sum exSummaryC3.activities none + exSummaryC3.distribute)
      (exSummaryC3.work_time - exSummaryC3.distribute -
        cutoff_sum exSummaryC3.activities none) = 2 ∧
    (1 : Int) ≠ 2 :=
  ⟨by decide, by decide, by decide⟩

/-- C4 counterexample: on `exSummaryC4` (every non-break activity at or above
the absent cutoff, distribute pool fully absorbed: both eligible activities
receive a 50-second share, summing to the 100-second pool) the adjusted
durations sum to `work_time = 300`, not `work_time - breaks = 200`. -/
theorem c4_conservation_counterexample :
    handle_cutoff_and_distribute exSummaryC4 none false =
      some [("a", (150, [])), ("b", (150, []))] ∧
    (150 + 150 : Int) = exSummaryC4.work_time ∧
    exSummaryC4.work_time - exSummaryC4.breaks = 200 ∧
    (300 : Int) ≠ 200 :=
  ⟨by decide, by decide, by decide, by decide⟩

/-- C2: the spec requires a zero denominator to yield a zero share, but at
this input (`work_time - distribute - cutoff_total = 0` with an eligible
activity of 10 seconds) the source divides `10.0` by `0.0` giving `+inf`,
multiplies to `+inf`, saturates the `as i64` cast to `i64::MAX`, and aborts
inside `chrono::Duration::seconds` (modelled as `none`) instead of returning
the activity with its own duration. -/
theorem c2_zero_denominator_divergence :
    exSummaryC2.work_time - exSummaryC2.distribute -
        cutoff_sum exSummaryC2.activities none = 0 ∧
    handle_cutoff_and_distribute exSummaryC2 none false = none ∧
    handle_cutoff_and_distribute exSummaryC2 none false ≠ some [("a", (10, []))] := by
  refine ⟨by decide, by decide, by decide⟩

/-- C3 (amended): when the summary totals and the cutoff total fit in 51 bits
(so that their f64 conversions and the pool/denominator sums are exact) and
the activity names are distinct, an activity appears in the result of
`handle_cutoff_and_distribute` iff it is not a break, (unless `all`) not
distributable, and at least the cutoff; its adjusted duration is
`own + (pool * (own as f64 / denominator)) as i64` computed in binary64,
with `pool = cutoff_total (+ summary.distribute unless all)` and
`denominator = work_time - summary.distribute - cutoff_total` exact. -/
theorem c3_membership_and_share (s : Summary) (cutoff : Option Int) (all : Bool)
    (res : List (String × Int × TagMap))
    (hnodup : (s.activities.map Prod.fst).Nodup)
    (hwt : |s.work_time| ≤ 2 ^ 51) (hsd : |s.distribute| ≤ 2 ^ 51)
    (hct : |cutoff_sum s.activities cutoff| ≤ 2 ^ 51)
    (hrun : handle_cutoff_and_distribute s cutoff all = some res)
    (n : String) (v : Int) (tm : TagMap) :
    alookup n res = some (v, tm) ↔
      ∃ d, alookup n s.activities = some (d, tm) ∧
        is_break n = false ∧ (all = true ∨ is_distributable n = false) ∧
        cutoff.getD 0 ≤ d ∧
        v = d + shareOf
            (.fin (((if all = true then cutoff_sum s.activities cutoff
                     else cutoff_sum s.activities cutoff + s.distribute : Int) : ℚ)))
            (.fin (((s.work_time - s.distribute - cutoff_sum s.activities cutoff : Int) : ℚ)))
            d := by
  obtain ⟨hwt1, hwt2⟩ := abs_le.mp hwt
  obtain ⟨hsd1, hsd2⟩ := abs_le.mp hsd
  obtain ⟨hct1, hct2⟩ := abs_le.mp hct
  have hp1 : (2 : Int) ^ 51 + 2 ^ 51 + 2 ^ 51 ≤ 2 ^ 53 := by norm_num
  have hp0 : (0 : Int) ≤ 2 ^ 51 := by norm_num
  have h53 : (2 : Int) ^ 51 ≤ 2 ^ 53 := by norm_num
  have hctF : toF64 (cutoff_sum s.activities cutoff) =
      .fin ((cutoff_sum s.activities cutoff : ℚ)) := toF64_int _ (hct.trans h53)
  have hsdF : toF64 s.distribute = .fin ((s.distribute : ℚ)) := toF64_int _ (hsd.trans h53)
  have hwtF : toF64 s.work_time = .fin ((s.work_time : ℚ)) := toF64_int _ (hwt.trans h53)
  have hpool : (if all = true then toF64 (cutoff_sum s.activities cutoff)
      else fadd (toF64 (cutoff_sum s.activities cutoff)) (toF64 s.distribute)) =
      .fin (((if all = true then cutoff_sum s.activities cutoff
              else cutoff_sum s.activities cutoff + s.distribute : Int) : ℚ)) := by
    cases all with
    | true =>
      simp only [if_true]
      exact hctF
    | false =>
      simp only [Bool.false_eq_true, if_false]
      rw [hctF, hsdF]
      exact fadd_int _ _ (abs_le.mpr ⟨by linarith, by linarith⟩)
  have hden : fsub (fsub (toF64 s.work_time) (toF64 s.distribute))
      (toF64 (cutoff_sum s.activities cutoff)) =
      .fin (((s.work_time - s.distribute - cutoff_sum s.activities cutoff : Int) : ℚ)) := by
    rw [hwtF, hsdF, hctF, fsub_int _ _ (abs_le.mpr ⟨by linarith, by linarith⟩)]
    exact fsub_int _ _ (abs_le.mpr ⟨by linarith, by linarith⟩)
  replace hrun : ((s.activities.filter (eligible all (cutoff.getD 0))).mapM fun p =>
      (durationSeconds (shareOf
        (if all = true then toF64 (cutoff_sum s.activities cutoff)
         else fadd (toF64 (cutoff_sum s.activities cutoff)) (toF64 s.distribute))
        (fsub (fsub (toF64 s.work_time) (toF64 s.distribute))
          (toF64 (cutoff_sum s.activities cutoff))) p.2.1)).map fun share =>
        (p.1, (p.2.1 + share, p.2.2))) = some res := hrun
  rw [hpool, hden] at hrun
  generalize hgP : F64.fin (((if all = true then cutoff_sum s.activities cutoff
      else cutoff_sum s.activities cutoff + s.distribute : Int) : ℚ)) = P at hrun ⊢
  generalize hgD : F64.fin (((s.work_time - s.distribute -
      cutoff_sum s.activities cutoff : Int) : ℚ)) = D at hrun ⊢
  rw [mapM_shares (shareOf P D) _ res hrun,
    alookup_filter_map (eligible all (cutoff.getD 0)) (shareOf P D) n v tm s.activities hnodup]
  constructor
  · rintro ⟨d, hd, hel, hv⟩
    simp only [eligible, decide_eq_true_eq, Bool.not_eq_true] at hel
    exact ⟨d, hd, hel.1, hel.2.1, hel.2.2, hv⟩
  · rintro ⟨d, hd, h1, h2, h3, hv⟩
    refine ⟨d, hd, ?_, hv⟩
    simp only [eligible, decide_eq_true_eq, Bool.not_eq_true]
    exact ⟨h1, h2, h3⟩

/-- C3 witness: a single 60-second activity `a` with an empty distribute pool
is reported unchanged, via the amended membership-and-share theorem. -/
theorem c3_membership_and_share_witness :
    alookup "a" [("a", ((60 : Int), ([] : TagMap)))] = some (60, []) :=
  (c3_membership_and_share ⟨0, 60, 0, 60, [("a", (60, []))], 0⟩ none false
      [("a", (60, []))] (by decide) (by decide) (by decide) (by decide) (by decide)
      "a" 60 []).mpr
    ⟨60, by decide, by decide, Or.inr (by decide), by decide, by decide⟩

/-- C4 (amended): for an `all = false` run whose summary is internally
consistent (`work_time` is the summed duration of the non-break activities and
`distribute` the summed duration of the distributable ones), in which every
non-break activity is at or above the cutoff and the binary64 shares of the
eligible activities absorb the distribute pool exactly, the adjusted durations
in the result sum to `work_time` (not `work_time - breaks`). -/
theorem c4_distribution_conservation (s : Summary) (cutoff : Option Int)
    (res : List (String × Int × TagMap))
    (hwt : s.work_time =
      ((s.activities.filter fun p => !is_break p.1).map fun p => p.2.1).sum)
    (hsd : s.distribute =
      ((s.activities.filter fun p => is_distributable p.1).map fun p => p.2.1).sum)
    (hcut : ∀ p ∈ s.activities, is_break p.1 = false → cutoff.getD 0 ≤ p.2.1)
    (habsorb : ((s.activities.filter (eligible false (cutoff.getD 0))).map fun p =>
        shareOf (fadd (toF64 (cutoff_sum s.activities cutoff)) (toF64 s.distribute))
          (fsub (fsub (toF64 s.work_time) (toF64 s.distribute))
            (toF64 (cutoff_sum s.activities cutoff))) p.2.1).sum = s.distribute)
    (hrun : handle_cutoff_and_distribute s cutoff false = some res) :
    (res.map fun p => p.2.1).sum = s.work_time := by
  replace hrun : ((s.activities.filter (eligible false (cutoff.getD 0))).mapM fun p =>
      (durationSeconds (shareOf
        (fadd (toF64 (cutoff_sum s.activities cutoff)) (toF64 s.distribute))
        (fsub (fsub (toF64 s.work_time) (toF64 s.distribute))
          (toF64 (cutoff_sum s.activities cutoff))) p.2.1)).map fun share =>
        (p.1, (p.2.1 + share, p.2.2))) = some res := hrun
  generalize hgP : fadd (toF64 (cutoff_sum s.activities cutoff)) (toF64 s.distribute) = P
    at hrun habsorb
  generalize hgD : fsub (fsub (toF64 s.work_time) (toF64 s.distribute))
      (toF64 (cutoff_sum s.activities cutoff)) = D at hrun habsorb
  rw [mapM_shares (shareOf P D) _ res hrun, List.map_map]
  show ((s.activities.filter (eligible false (cutoff.getD 0))).map fun p =>
      p.2.1 + shareOf P D p.2.1).sum = s.work_time
  have hsplit : ((s.activities.filter (eligible false (cutoff.getD 0))).map fun p =>
      p.2.1 + shareOf P D p.2.1).sum =
      ((s.activities.filter (eligible false (cutoff.getD 0))).map fun p => p.2.1).sum +
      ((s.activities.filter (eligible false (cutoff.getD 0))).map fun p =>
        shareOf P D p.2.1).sum := sum_map_add _ _ _
  rw [hsplit, habsorb]
  have hfilter : s.activities.filter (eligible false (cutoff.getD 0)) =
      s.activities.filter fun p => !is_break p.1 && !is_distributable p.1 := by
    apply List.filter_congr
    intro p hp
    cases hb : is_break p.1 with
    | true => simp [eligible, hb]
    | false =>
      have hc := hcut p hp hb
      cases hd : is_distributable p.1 with
      | true => simp [eligible, hb, hd]
      | false => simp [eligible, hb, hd, hc]
  rw [hfilter]
  have hsplit2 : ((s.activities.filter fun p => !is_break p.1).map fun p => p.2.1).sum =
      ((s.activities.filter fun p =>
        !is_break p.1 && is_distributable p.1).map fun p => p.2.1).sum +
      ((s.activities.filter fun p =>
        !is_break p.1 && !is_distributable p.1).map fun p => p.2.1).sum :=
    sum_filter_split _ _ _ s.activities
  have hd2 : (s.activities.filter fun p => !is_break p.1 && is_distributable p.1) =
      s.activities.filter fun p => is_distributable p.1 := by
    apply List.filter_congr
    intro p _
    cases hd : is_distributable p.1 with
    | false => simp
    | true => simp [distributable_not_break p.1 hd]
  rw [hd2] at hsplit2
  linarith [hwt, hsd, hsplit2]

/-- C4 witness: on the concrete summary with 100 seconds of breaks, the
conservation theorem reports the distributed total `work_time = 300`. -/
theorem c4_distribution_conservation_witness :
    (([("a", ((150 : Int), ([] : TagMap))), ("b", (150, []))].map
        fun p => p.2.1).sum : Int) = exSummaryC4.work_time :=
  c4_distribution_conservation exSummaryC4 none [("a", (150, [])), ("b", (150, []))]
    (by decide) (by decide) (by decide) (by decide) (by decide)

end TT
